import Mathlib

/-!
# Verification of the Slimmable NAS core

A shallow embedding, in Lean 4, of the core routines of the Slimmable
repository (width-switchable model, path-sampling replicator, FLOPs-calibrated
loss), together with theorems settling the specification claims about them.

Conventions used throughout:
* Python floats are modelled as rationals (`ℚ`); Python ints as `Nat`.
* Fallible Python code (raising `IndexError` / `ValueError` / failed
  `assert`) is modelled with `Option`: `none` means the call raises.
* Stateful code is modelled by explicit state passing: a mutating method
  becomes a function returning the updated value.
-/

namespace Slimmable

/-! ## `utils/flopsLoss.py` : the loss-shaping transform `LossDiff`

`LossDiff.__init__` sets `self._lossFunc = LeakyReLU(0.1)` and
`calcLoss(x) = self._lossFunc.negative_slope + self._lossFunc(x)`.
Torch's `LeakyReLU(s)` computes `x` for `x ≥ 0` and `s * x` for `x < 0`. -/

/-- Torch `LeakyReLU` with negative slope `s`: `x` if `0 ≤ x`, else `s * x`. -/
def leakyReLU (s : ℚ) (x : ℚ) : ℚ :=
  if 0 ≤ x then x else s * x

/-- `LossDiff.calcLoss` from `utils/flopsLoss.py`:
`negative_slope + LeakyReLU(negative_slope)(x)` with `negative_slope = 0.1`. -/
def lossDiffCalcLoss (x : ℚ) : ℚ :=
  (1 / 10 : ℚ) + leakyReLU (1 / 10) x

/-! ## `replicator/Replicator.py` : `ModelReplicator._splitSamples`

The Python code builds `{gpu: floor(nSamples / nCopies) for gpu in gpuIDs}`,
computes `diff = nSamples - sum(values)` and then increments the entries of
the first `diff` gpu ids.  The gpu ids come from the `--gpu` CLI argument and
are distinct, so the Python dict keyed by gpu id is modelled as an
association list in `gpuIDs` order. -/

/-- The loop `for idx in range(diff): nSamplesPerCopy[gpuIDs[idx]] += 1`:
increment the count of the first `diff` entries.  (`diff` never exceeds the
list length in the source, since `diff = nSamples mod nCopies < nCopies`.) -/
def addRemainder : Nat → List (Nat × Nat) → List (Nat × Nat)
  | _, [] => []
  | 0, l => l
  | diff + 1, p :: rest => (p.1, p.2 + 1) :: addRemainder diff rest

/-- `ModelReplicator._splitSamples` from `replicator/Replicator.py`. -/
def splitSamples (gpuIDs : List Nat) (nSamples : Nat) : List (Nat × Nat) :=
  let nCopies := gpuIDs.length
  let nSamplesPerCopy := gpuIDs.map fun gpu => (gpu, nSamples / nCopies)
  let diff := nSamples - (nSamplesPerCopy.map Prod.snd).sum
  addRemainder diff nSamplesPerCopy

/-! ### Helper lemmas about `addRemainder` -/

lemma addRemainder_map_fst (d : Nat) (l : List (Nat × Nat)) :
    (addRemainder d l).map Prod.fst = l.map Prod.fst := by
  induction l generalizing d with
  | nil => cases d <;> rfl
  | cons p rest ih =>
    cases d with
    | zero => rfl
    | succ d => simp [addRemainder, ih]

lemma addRemainder_length (d : Nat) (l : List (Nat × Nat)) :
    (addRemainder d l).length = l.length := by
  have := addRemainder_map_fst d l
  have h1 := congrArg List.length this
  simpa using h1

lemma addRemainder_sum (d : Nat) (l : List (Nat × Nat)) :
    ((addRemainder d l).map Prod.snd).sum
      = (l.map Prod.snd).sum + min d l.length := by
  induction l generalizing d with
  | nil => cases d <;> simp [addRemainder]
  | cons p rest ih =>
    cases d with
    | zero => simp [addRemainder]
    | succ d =>
      simp [addRemainder, ih]
      omega

lemma addRemainder_getD (d : Nat) (l : List (Nat × Nat)) (i : Nat)
    (h2 : i < l.length) :
    (addRemainder d l).getD i (0, 0)
      = ((l.getD i (0, 0)).1,
         (l.getD i (0, 0)).2 + if i < d then 1 else 0) := by
  induction l generalizing d i with
  | nil => simp at h2
  | cons p rest ih =>
    cases d with
    | zero => simp [addRemainder]
    | succ d =>
      cases i with
      | zero => simp [addRemainder]
      | succ i =>
        have h4 : i < rest.length := by simp at h2; omega
        simp only [addRemainder, List.getD_cons_succ, Nat.add_lt_add_iff_right]
        exact ih d i h4

/-! ### Claim theorems C9 and C8 -/

/-- C9: the loss-shaping transform `LossDiff.calcLoss(x) = negativeSlope +
LeakyReLU(x)` with `negativeSlope = 0.1` is continuous and strictly
monotonically increasing, and penalizes positive deviation more than
negative: for every `d > 0`, `calcLoss(d) - calcLoss(0)` strictly exceeds
`calcLoss(0) - calcLoss(-d)`.  (Python floats modelled as `ℚ`.) -/
theorem c9_lossDiff_shape :
    Continuous lossDiffCalcLoss ∧ StrictMono lossDiffCalcLoss ∧
    ∀ d : ℚ, 0 < d →
      lossDiffCalcLoss 0 - lossDiffCalcLoss (-d)
        < lossDiffCalcLoss d - lossDiffCalcLoss 0 := by
  have hmax : lossDiffCalcLoss = fun x => (1 / 10 : ℚ) + max x (1 / 10 * x) := by
    funext x
    simp only [lossDiffCalcLoss, leakyReLU]
    split_ifs with h
    · rw [max_eq_left (by linarith)]
    · rw [max_eq_right (by push_neg at h; linarith)]
  refine ⟨?_, ?_, ?_⟩
  · rw [hmax]
    exact continuous_const.add
      (Continuous.max continuous_id (continuous_const.mul continuous_id))
  · intro a b hab
    simp only [lossDiffCalcLoss, leakyReLU]
    split_ifs <;> linarith
  · intro d hd
    have h1 : ¬ (0 : ℚ) ≤ -d := by linarith
    simp only [lossDiffCalcLoss, leakyReLU, if_neg h1, le_refl, if_true, if_pos hd.le]
    linarith

/-- Witness for C9: concrete instantiation of the asymmetry at `d = 1`. -/
theorem c9_witness :
    (0 : ℚ) < 1 ∧
      lossDiffCalcLoss 0 - lossDiffCalcLoss (-1)
        < lossDiffCalcLoss 1 - lossDiffCalcLoss 0 :=
  ⟨by norm_num, c9_lossDiff_shape.2.2 1 (by norm_num)⟩

/-- C8: for every `nSamples ≥ 0` and non-empty device list, `_splitSamples`
returns a per-device map (in `gpuIDs` order) whose values sum to exactly
`nSamples`, whose values pairwise differ by at most one, whose remainder
`nSamples mod k` extra samples go to the first devices in `gpuIDs` order,
and in particular `nSamples = 10` over `gpuIDs = [0,1,2]` yields
`{0: 4, 1: 3, 2: 3}`. -/
theorem c8_splitSamples_spec (gpuIDs : List Nat) (nSamples : Nat)
    (hne : gpuIDs ≠ []) :
    ((splitSamples gpuIDs nSamples).map Prod.fst = gpuIDs) ∧
    (((splitSamples gpuIDs nSamples).map Prod.snd).sum = nSamples) ∧
    (∀ a ∈ (splitSamples gpuIDs nSamples).map Prod.snd,
      ∀ b ∈ (splitSamples gpuIDs nSamples).map Prod.snd, a ≤ b + 1) ∧
    (∀ i, i < (splitSamples gpuIDs nSamples).length →
      ((splitSamples gpuIDs nSamples).getD i (0, 0)).2
        = nSamples / gpuIDs.length
          + if i < nSamples % gpuIDs.length then 1 else 0) ∧
    splitSamples [0, 1, 2] 10 = [(0, 4), (1, 3), (2, 3)] := by
  have hk : 0 < gpuIDs.length := List.length_pos.mpr hne
  set k := gpuIDs.length with hkdef
  set q := nSamples / k with hqdef
  set perCopy : List (Nat × Nat) := gpuIDs.map fun gpu => (gpu, q) with hper
  have hlen : perCopy.length = k := by simp [hper]
  have hsnd : perCopy.map Prod.snd = List.replicate k q := by
    simp only [hper, List.map_map]
    have : (Prod.snd ∘ fun gpu => ((gpu, q) : Nat × Nat)) = fun _ => q := rfl
    rw [this, List.map_const']
  have hsum : (perCopy.map Prod.snd).sum = k * q := by
    rw [hsnd, List.sum_replicate, smul_eq_mul]
  have hdm : k * q + nSamples % k = nSamples := by
    rw [hqdef]; exact Nat.div_add_mod nSamples k
  have hdiff : nSamples - (perCopy.map Prod.snd).sum = nSamples % k := by
    rw [hsum]; omega
  have hrk : nSamples % k < k := Nat.mod_lt _ hk
  have hs : splitSamples gpuIDs nSamples = addRemainder (nSamples % k) perCopy := by
    rw [splitSamples]
    simp only [← hkdef, ← hqdef, ← hper, hdiff]
  have hget : ∀ i, i < (splitSamples gpuIDs nSamples).length →
      ((splitSamples gpuIDs nSamples).getD i (0, 0)).2
        = q + if i < nSamples % k then 1 else 0 := by
    intro i h
    have h0 : i < (addRemainder (nSamples % k) perCopy).length := by rwa [hs] at h
    have h2 : i < perCopy.length := by rwa [addRemainder_length] at h0
    have hstep := addRemainder_getD (nSamples % k) perCopy i h2
    rw [hs, hstep]
    have hq : (perCopy.getD i (0, 0)).2 = q := by
      rw [List.getD_eq_getElem _ _ h2]
      simp [hper]
    rw [hq]
  refine ⟨?_, ?_, ?_, hget, ?_⟩
  · rw [hs, addRemainder_map_fst, hper, List.map_map]
    have : (Prod.fst ∘ fun gpu => ((gpu, q) : Nat × Nat)) = id := rfl
    rw [this, List.map_id]
  · rw [hs, addRemainder_sum, hsum, hlen]
    omega
  · have hmem : ∀ a ∈ (splitSamples gpuIDs nSamples).map Prod.snd,
        a = q ∨ a = q + 1 := by
      intro a ha
      rcases List.mem_map.mp ha with ⟨p, hp, rfl⟩
      rcases List.mem_iff_getElem.mp hp with ⟨i, hi, rfl⟩
      have := hget i hi
      rw [List.getD_eq_getElem _ _ hi] at this
      rw [this]
      split_ifs <;> omega
    intro a ha b hb
    rcases hmem a ha with rfl | rfl <;> rcases hmem b hb with rfl | rfl <;> omega
  · rfl

/-- Witness for C8: concrete split of 10 samples over gpus `[0, 1, 2]`. -/
theorem c8_witness :
    ([0, 1, 2] : List Nat) ≠ [] ∧
      splitSamples [0, 1, 2] 10 = [(0, 4), (1, 3), (2, 3)] :=
  ⟨by decide, (c8_splitSamples_spec [0, 1, 2] 10 (by decide)).2.2.2.2⟩

/-! ## `utils/flopsLoss.py` : `FlopsLoss.forward`

`forward` looks up the bracket around `modelFlops` in the sorted breakpoint
list `self._flopsList` with `bisect.bisect_left`, unpacks the slice
`self._flopsList[flopsIdx - 1 : flopsIdx + 1]` into `(x0, x1)` (for
`flopsIdx <= 0` it uses `self._flopsList[0:2]` instead), asserts
`x0 <= modelFlops <= x1`, reads the pre-fitted line `(m, b)` from
`self._linearLineParams[(x0, x1)]` and builds the loss dict.  Raising
(`ValueError` from a failed unpack, `AssertionError`) is modelled as
`none`. -/

/-- CPython's `bisect_left` loop
(`while lo < hi: mid = (lo+hi)//2; if a[mid] < x: lo = mid+1 else: hi = mid`).
The extra fuel argument only drives the recursion; since `hi - lo` shrinks
every iteration, fuel `a.length` (as passed by `bisectLeft`) is never
exhausted. -/
def bisectLoop (a : List ℚ) (x : ℚ) : Nat → Nat → Nat → Nat
  | 0, lo, _ => lo
  | fuel + 1, lo, hi =>
    if lo < hi then
      let mid := (lo + hi) / 2
      if a.getD mid 0 < x then bisectLoop a x fuel (mid + 1) hi
      else bisectLoop a x fuel lo mid
    else lo

/-- Python `bisect.bisect_left(a, x)` with default bounds. -/
def bisectLeft (a : List ℚ) (x : ℚ) : Nat :=
  bisectLoop a x a.length 0 a.length

/-- The bracket-selection part of `FlopsLoss.forward`
(`flopsIdx = bisect_left(...)`; slice and unpack; `assert`). -/
def forwardBracket (flopsList : List ℚ) (modelFlops : ℚ) : Option (ℚ × ℚ) :=
  let flopsIdx := bisectLeft flopsList modelFlops
  if flopsIdx ≤ 0 then
    match flopsList.take 2 with
    | [x0, x1] => some (x0, x1)
    | _ => none
  else
    match (flopsList.drop (flopsIdx - 1)).take 2 with
    | [x0, x1] =>
      if x0 ≤ modelFlops ∧ modelFlops ≤ x1 then some (x0, x1) else none
    | _ => none

/-- The loss dict `{CrossEntropy, Flops, Total}` returned by
`FlopsLoss.forward`. -/
structure LossDict where
  crossEntropy : ℚ
  flops : ℚ
  total : ℚ
deriving Repr, DecidableEq

/-- The calibration state of a `FlopsLoss` instance: the sorted breakpoint
list (`sorted(homogeneousLoss.flopsDict.keys())`) and the pre-fitted
`(slope, intercept)` line per breakpoint bracket
(`homogeneousLoss.linearLineParams`, an external calibration artifact,
modelled as a function on bracket pairs). -/
structure FlopsLossState where
  flopsList : List ℚ
  linearLineParams : ℚ × ℚ → ℚ × ℚ

/-- `expectedLoss = (m * modelFlops) + b` where
`m, b = self._linearLineParams[(x0, x1)]`. -/
def expectedLoss (L : FlopsLossState) (p : ℚ × ℚ) (modelFlops : ℚ) : ℚ :=
  (L.linearLineParams p).1 * modelFlops + (L.linearLineParams p).2

/-- `FlopsLoss.forward` from `utils/flopsLoss.py`.  The cross-entropy value
`crossEntropyLoss(input, target)` is an external torch computation and is
passed in directly. -/
def flopsLossForward (L : FlopsLossState) (crossEntropy : ℚ) (modelFlops : ℚ) :
    Option LossDict :=
  (forwardBracket L.flopsList modelFlops).map fun p =>
    let lossDiff := crossEntropy - expectedLoss L p modelFlops
    { crossEntropy := crossEntropy, flops := modelFlops,
      total := lossDiffCalcLoss (lossDiff / expectedLoss L p modelFlops) }

/-! ### Correctness of the `bisect_left` loop on sorted lists -/

lemma sorted_getD_le (a : List ℚ) (hs : a.Sorted (· ≤ ·)) (i j : Nat)
    (hij : i ≤ j) (hj : j < a.length) : a.getD i 0 ≤ a.getD j 0 := by
  rcases Nat.eq_or_lt_of_le hij with rfl | hlt
  · exact le_refl _
  · have hi : i < a.length := lt_trans hlt hj
    rw [List.getD_eq_getElem _ _ hi, List.getD_eq_getElem _ _ hj]
    exact List.pairwise_iff_getElem.mp hs i j hi hj hlt

/-- Invariant-based characterization of the `bisect_left` loop: the result
`r` lies in `[lo, hi]`, everything left of `r` is `< x`, everything from `r`
on is `≥ x`. -/
lemma bisectLoop_char (a : List ℚ) (x : ℚ) (hs : a.Sorted (· ≤ ·)) :
    ∀ fuel lo hi, hi - lo ≤ fuel → lo ≤ hi → hi ≤ a.length →
    (∀ i, i < lo → a.getD i 0 < x) →
    (∀ i, hi ≤ i → i < a.length → x ≤ a.getD i 0) →
    lo ≤ bisectLoop a x fuel lo hi ∧ bisectLoop a x fuel lo hi ≤ hi ∧
    (∀ i, i < bisectLoop a x fuel lo hi → a.getD i 0 < x) ∧
    (∀ i, bisectLoop a x fuel lo hi ≤ i → i < a.length → x ≤ a.getD i 0) := by
  intro fuel
  induction fuel with
  | zero =>
    intro lo hi hfuel hlh _ hlow hhigh
    have : lo = hi := by omega
    subst this
    exact ⟨le_refl _, le_refl _, hlow, hhigh⟩
  | succ fuel ih =>
    intro lo hi hfuel hlh hhi hlow hhigh
    by_cases hlt : lo < hi
    · rw [bisectLoop, if_pos hlt]
      have hmid1 : lo ≤ (lo + hi) / 2 := by omega
      have hmid2 : (lo + hi) / 2 < hi := by omega
      have hmidlen : (lo + hi) / 2 < a.length := lt_of_lt_of_le hmid2 hhi
      by_cases hx : a.getD ((lo + hi) / 2) 0 < x
      · rw [if_pos hx]
        refine (ih ((lo + hi) / 2 + 1) hi (by omega) (by omega) hhi ?_ hhigh).imp
          (fun h1 => by omega) (fun h => h)
        intro i hi2
        exact lt_of_le_of_lt (sorted_getD_le a hs i ((lo + hi) / 2) (by omega) hmidlen) hx
      · rw [if_neg hx]
        push_neg at hx
        refine (ih lo ((lo + hi) / 2) (by omega) (by omega) (by omega) hlow ?_).imp
          (fun h => h) (fun h => ⟨by omega, h.2⟩)
        intro i hi2 hilen
        exact le_trans hx (sorted_getD_le a hs ((lo + hi) / 2) i hi2 hilen)
    · rw [bisectLoop, if_neg hlt]
      have : lo = hi := by omega
      subst this
      exact ⟨le_refl _, le_refl _, hlow, hhigh⟩

/-- `bisect_left` on a (weakly) sorted list: result characterization. -/
lemma bisectLeft_char (a : List ℚ) (x : ℚ) (hs : a.Sorted (· ≤ ·)) :
    bisectLeft a x ≤ a.length ∧
    (∀ i, i < bisectLeft a x → a.getD i 0 < x) ∧
    (∀ i, bisectLeft a x ≤ i → i < a.length → x ≤ a.getD i 0) := by
  have h := bisectLoop_char a x hs a.length 0 a.length (by omega) (by omega)
    (le_refl _) (by omega) (by intro i h1 h2; omega)
  exact ⟨h.2.1, h.2.2⟩

/-- On a strictly sorted list, `bisect_left a (a[j]) = j`. -/
lemma bisectLeft_at_breakpoint (a : List ℚ) (hs : a.Sorted (· < ·))
    (j : Nat) (hj : j < a.length) :
    bisectLeft a (a.getD j 0) = j := by
  have hch := bisectLeft_char a (a.getD j 0) (hs.imp le_of_lt)
  set B := bisectLeft a (a.getD j 0) with hB
  by_cases h1 : B < j
  · exfalso
    have hlt : a.getD B 0 < a.getD j 0 := by
      rw [List.getD_eq_getElem _ _ (lt_trans h1 hj), List.getD_eq_getElem _ _ hj]
      exact List.pairwise_iff_getElem.mp hs _ _ (lt_trans h1 hj) hj h1
    have hge := hch.2.2 B (le_refl _) (lt_trans h1 hj)
    linarith
  · by_cases h2 : j < B
    · exfalso
      have := hch.2.1 j h2
      linarith
    · omega

/-- Below (or at) the smallest element, `bisect_left` returns 0. -/
lemma bisectLeft_below (a : List ℚ) (x : ℚ) (hs : a.Sorted (· ≤ ·))
    (hx : x ≤ a.getD 0 0) :
    bisectLeft a x = 0 := by
  have hch := bisectLeft_char a x hs
  by_contra h
  have h0 : 0 < bisectLeft a x := Nat.pos_of_ne_zero h
  have := hch.2.1 0 h0
  linarith

/-- Strictly above every element, `bisect_left` returns the length. -/
lemma bisectLeft_above (a : List ℚ) (x : ℚ) (hs : a.Sorted (· ≤ ·))
    (hx : ∀ y ∈ a, y < x) :
    bisectLeft a x = a.length := by
  have hch := bisectLeft_char a x hs
  by_contra h
  have h1 : bisectLeft a x < a.length := lt_of_le_of_ne hch.1 h
  have h2 := hch.2.2 (bisectLeft a x) (le_refl _) h1
  have h3 : a.getD (bisectLeft a x) 0 < x := by
    rw [List.getD_eq_getElem _ _ h1]
    exact hx _ (List.getElem_mem h1)
  linarith

/-! ### Claim theorems C2 and C3 -/

/-- C2: with a strictly sorted calibration table of at least two
breakpoints, (a) when `modelFlops` equals breakpoint `j` for `j ≥ 1`, the
bracket chosen is the one ending at that breakpoint and `forward` returns
the loss dict whose `Total` is computed from
`expectedLoss = slope * modelFlops + intercept` of that bracket's pre-fitted
line; (b) for `modelFlops` below (or equal to) the smallest breakpoint,
`forward` uses the first two table entries as the bracket and returns a loss
dict without raising. -/
theorem c2_forward_at_breakpoint (L : FlopsLossState) (ce : ℚ)
    (hsort : L.flopsList.Sorted (· < ·)) (hlen : 2 ≤ L.flopsList.length) :
    (∀ j, 1 ≤ j → j < L.flopsList.length →
      forwardBracket L.flopsList (L.flopsList.getD j 0)
        = some (L.flopsList.getD (j - 1) 0, L.flopsList.getD j 0) ∧
      flopsLossForward L ce (L.flopsList.getD j 0)
        = some { crossEntropy := ce, flops := L.flopsList.getD j 0,
                 total := lossDiffCalcLoss
                   ((ce - expectedLoss L
                        (L.flopsList.getD (j - 1) 0, L.flopsList.getD j 0)
                        (L.flopsList.getD j 0))
                     / expectedLoss L
                        (L.flopsList.getD (j - 1) 0, L.flopsList.getD j 0)
                        (L.flopsList.getD j 0)) }) ∧
    (∀ x, x ≤ L.flopsList.getD 0 0 →
      forwardBracket L.flopsList x
        = some (L.flopsList.getD 0 0, L.flopsList.getD 1 0) ∧
      ∃ d, flopsLossForward L ce x = some d) := by
  constructor
  · intro j hj1 hjlen
    have hb := bisectLeft_at_breakpoint L.flopsList hsort j hjlen
    have hj0 : j - 1 < L.flopsList.length := by omega
    have hdrop : (L.flopsList.drop (j - 1)).take 2
        = [L.flopsList.getD (j - 1) 0, L.flopsList.getD j 0] := by
      rw [List.drop_eq_getElem_cons hj0]
      have hj2 : j - 1 + 1 = j := by omega
      rw [hj2, List.drop_eq_getElem_cons hjlen]
      rw [List.getD_eq_getElem _ _ hj0, List.getD_eq_getElem _ _ hjlen]
      rfl
    have hle : L.flopsList.getD (j - 1) 0 ≤ L.flopsList.getD j 0 :=
      sorted_getD_le _ (hsort.imp le_of_lt) _ _ (by omega) hjlen
    have hbr : forwardBracket L.flopsList (L.flopsList.getD j 0)
        = some (L.flopsList.getD (j - 1) 0, L.flopsList.getD j 0) := by
      simp only [forwardBracket, hb]
      rw [if_neg (by omega : ¬ j ≤ 0), hdrop]
      exact if_pos ⟨hle, le_refl _⟩
    refine ⟨hbr, ?_⟩
    rw [flopsLossForward, hbr]
    rfl
  · intro x hx
    have hb := bisectLeft_below L.flopsList x (hsort.imp le_of_lt) hx
    have h0 : 0 < L.flopsList.length := by omega
    have h1 : 1 < L.flopsList.length := by omega
    have htake : L.flopsList.take 2
        = [L.flopsList.getD 0 0, L.flopsList.getD 1 0] := by
      have e0 := List.drop_eq_getElem_cons h0
      rw [List.drop_zero] at e0
      have e1 := List.drop_eq_getElem_cons h1
      rw [List.getD_eq_getElem _ _ h0, List.getD_eq_getElem _ _ h1]
      conv_lhs => rw [e0, e1]
      rfl
    have hbr : forwardBracket L.flopsList x
        = some (L.flopsList.getD 0 0, L.flopsList.getD 1 0) := by
      simp only [forwardBracket, hb]
      rw [if_pos (le_refl 0), htake]
    refine ⟨hbr, ?_⟩
    rw [flopsLossForward, hbr]
    exact ⟨_, rfl⟩

/-- Witness for C2: the table `[1, 2, 4]`, `modelFlops = 2` (breakpoint 1):
the bracket is `(1, 2)`. -/
theorem c2_witness :
    forwardBracket [(1 : ℚ), 2, 4] (([(1 : ℚ), 2, 4]).getD 1 0)
      = some (([(1 : ℚ), 2, 4]).getD 0 0, ([(1 : ℚ), 2, 4]).getD 1 0) :=
  ((c2_forward_at_breakpoint ⟨[(1 : ℚ), 2, 4], fun _ => (1, 0)⟩ 1
      (by decide) (by decide)).1 1 (by decide) (by decide)).1

/-- C3 as stated is false: for `modelFlops` strictly above the largest
breakpoint, `bisect_left` returns `len(flopsList)`, the slice
`flopsList[flopsIdx - 1 : flopsIdx + 1]` has a single element, and the
tuple unpacking `x0, x1 = ...` raises `ValueError` — `forward` raises
instead of returning a loss dict.  Concrete counterexample: table `[1, 2]`,
`modelFlops = 3 > 2`. -/
theorem c3_counterexample :
    (2 : ℚ) < 3 ∧
      flopsLossForward ⟨[(1 : ℚ), 2], fun _ => (1, 0)⟩ 1 3 = none := by
  constructor
  · norm_num
  · have hb : bisectLeft [(1 : ℚ), 2] 3 = 2 := by decide
    simp [flopsLossForward, forwardBracket, hb]

/-- C3 amended: for every `modelFlops` strictly greater than every
calibration breakpoint in the sorted non-empty table, `FlopsLoss.forward`
raises (fails) rather than extrapolating via the last bracket. -/
theorem c3_above_range_raises (L : FlopsLossState) (ce x : ℚ)
    (hs : L.flopsList.Sorted (· ≤ ·)) (hne : L.flopsList ≠ [])
    (hx : ∀ y ∈ L.flopsList, y < x) :
    flopsLossForward L ce x = none := by
  have hlen : 0 < L.flopsList.length := List.length_pos.mpr hne
  have hb := bisectLeft_above L.flopsList x hs hx
  have hdl : (L.flopsList.drop (L.flopsList.length - 1)).length = 1 := by
    rw [List.length_drop]; omega
  obtain ⟨z, hz⟩ := List.length_eq_one.mp hdl
  simp only [flopsLossForward, forwardBracket, hb]
  rw [if_neg (by omega : ¬ L.flopsList.length ≤ 0), hz]
  rfl

/-- Witness for C3's amended theorem: table `[1, 2]`, `modelFlops = 3`. -/
theorem c3_witness :
    List.Sorted (· ≤ ·) [(1 : ℚ), 2] ∧ ([(1 : ℚ), 2] ≠ []) ∧
      (∀ y ∈ [(1 : ℚ), 2], y < 3) ∧
      flopsLossForward ⟨[(1 : ℚ), 2], fun _ => (1, 0)⟩ 5 3 = none :=
  ⟨by decide, by decide, by decide,
    c3_above_range_raises ⟨[(1 : ℚ), 2], fun _ => (1, 0)⟩ 5 3
      (by decide) (by decide) (by decide)⟩

/-! ## The width-indexed layer

Modelled from the spec: the slim convolution layer class (`convSlimLayer`,
`models/modules/...`) is not part of the provided sources — only its callers
are.  Per the spec's data model: an ordered list of candidate width ratios,
a parallel list of output channel counts, and a current width index
`currWidthIdx ∈ [0, len(widthRatioList))`; `setCurrWidthIdx(i)` fails with
`IndexError` if `i` is out of range; `currWidth()` is the channel count at
the current index; `widthRatioByIdx(idx)` reads the ratio list. -/
structure SlimLayer where
  widthRatioList : List ℚ
  widthList : List Nat
  currWidthIdx : Nat
deriving Repr, DecidableEq

/-- Number of candidate widths of a layer. -/
def SlimLayer.nWidths (l : SlimLayer) : Nat := l.widthRatioList.length

/-- `currWidth()`: output channel count at the current width index. -/
def SlimLayer.currWidth (l : SlimLayer) : Nat := l.widthList.getD l.currWidthIdx 0

/-- `currWidthRatio()`: width ratio at the current width index. -/
def SlimLayer.currWidthRatio (l : SlimLayer) : ℚ :=
  l.widthRatioList.getD l.currWidthIdx 0

/-- `widthRatioByIdx(idx)`. -/
def SlimLayer.widthRatioByIdx (l : SlimLayer) (idx : Nat) : ℚ :=
  l.widthRatioList.getD idx 0

/-- `setCurrWidthIdx(idx)`; `none` models the `IndexError` on an
out-of-range index. -/
def SlimLayer.setCurrWidthIdx (l : SlimLayer) (idx : Nat) : Option SlimLayer :=
  if idx < l.nWidths then some { l with currWidthIdx := idx } else none

/-! ## `replicator/Replicator.py` : the paths-history trie

`_doesPathExist(pathsHistoryDict, currPath)` walks the nested-dict trie one
width index at a time, creating missing nodes as it goes (`currDict[v] = {}`
when `v not in currDict`), and returns whether every node was already
present.  The nested Python dict is modelled as an association-list trie
(first-match lookup, in-place replacement — Python dict keys are unique, so
the two coincide). -/

/-- The paths-history trie (a Python dict from width index to sub-dict). -/
inductive PathTrie where
  | node : List (Nat × PathTrie) → PathTrie

/-- Dict lookup `currDict[v]` (first match). -/
def lookupChild : List (Nat × PathTrie) → Nat → Option PathTrie
  | [], _ => none
  | (k, t) :: rest, v => if k = v then some t else lookupChild rest v

/-- Dict assignment `currDict[v] = c` (replace the binding, or append). -/
def setChild : List (Nat × PathTrie) → Nat → PathTrie → List (Nat × PathTrie)
  | [], v, c => [(v, c)]
  | (k, t) :: rest, v, c =>
    if k = v then (v, c) :: rest else (k, t) :: setChild rest v c

/-- `ModelReplicator._doesPathExist`: returns the `pathExists` flag and the
updated trie (the Python version mutates `pathsHistoryDict` in place; once
a node was missing the flag is `False` for good, and the levels below are
created fresh). -/
def doesPathExist : PathTrie → List Nat → Bool × PathTrie
  | t, [] => (true, t)
  | .node cs, v :: rest =>
    match lookupChild cs v with
    | some child =>
      let r := doesPathExist child rest
      (r.1, .node (setChild cs v r.2))
    | none =>
      let r := doesPathExist (.node []) rest
      (false, .node (setChild cs v r.2))

/-- Every node along `p` is present in the trie (pure observation; this is
what `_doesPathExist` would report without its insertion side effect). -/
def containsPath : PathTrie → List Nat → Bool
  | _, [] => true
  | .node cs, v :: rest =>
    match lookupChild cs v with
    | some child => containsPath child rest
    | none => false

lemma lookupChild_setChild_self (cs : List (Nat × PathTrie)) (v : Nat)
    (c : PathTrie) : lookupChild (setChild cs v c) v = some c := by
  induction cs with
  | nil => simp [setChild, lookupChild]
  | cons p rest ih =>
    obtain ⟨k, t⟩ := p
    by_cases h : k = v
    · simp [setChild, h, lookupChild]
    · simp [setChild, h, lookupChild, ih]

lemma lookupChild_setChild_other (cs : List (Nat × PathTrie)) (v w : Nat)
    (c : PathTrie) (hvw : w ≠ v) :
    lookupChild (setChild cs v c) w = lookupChild cs w := by
  have hvw2 : ¬ v = w := fun h => hvw h.symm
  induction cs with
  | nil => simp [setChild, lookupChild, hvw2]
  | cons p rest ih =>
    obtain ⟨k, t⟩ := p
    by_cases h : k = v
    · subst h
      simp [setChild, lookupChild, hvw2]
    · simp [setChild, h, lookupChild, ih]

lemma doesPathExist_fst (p : List Nat) : ∀ t : PathTrie,
    (doesPathExist t p).1 = containsPath t p := by
  induction p with
  | nil => intro t; obtain ⟨cs⟩ := t; rfl
  | cons v rest ih =>
    intro t
    obtain ⟨cs⟩ := t
    cases hv : lookupChild cs v with
    | some c => simp [doesPathExist, containsPath, hv, ih]
    | none => simp [doesPathExist, containsPath, hv]

lemma doesPathExist_inserts (p : List Nat) : ∀ t : PathTrie,
    containsPath (doesPathExist t p).2 p = true := by
  induction p with
  | nil => intro t; obtain ⟨cs⟩ := t; rfl
  | cons v rest ih =>
    intro t
    obtain ⟨cs⟩ := t
    cases hv : lookupChild cs v with
    | some c =>
      simp only [doesPathExist, hv, containsPath, lookupChild_setChild_self]
      exact ih c
    | none =>
      simp only [doesPathExist, hv, containsPath, lookupChild_setChild_self]
      exact ih (.node [])

lemma containsPath_mono (p : List Nat) : ∀ (t : PathTrie) (q : List Nat),
    containsPath t q = true → containsPath (doesPathExist t p).2 q = true := by
  induction p with
  | nil => intro t q h; obtain ⟨cs⟩ := t; exact h
  | cons v rest ih =>
    intro t q hq
    obtain ⟨cs⟩ := t
    cases q with
    | nil =>
      cases hv : lookupChild cs v <;> simp [doesPathExist, hv, containsPath]
    | cons w qrest =>
      simp only [containsPath] at hq
      cases hw : lookupChild cs w with
      | none => rw [hw] at hq; exact absurd hq (by simp)
      | some cw =>
        rw [hw] at hq
        simp only at hq
        by_cases hvw : w = v
        · subst hvw
          simp only [doesPathExist, hw, containsPath, lookupChild_setChild_self]
          exact ih cw qrest hq
        · cases hv : lookupChild cs v with
          | some cv =>
            simp only [doesPathExist, hv, containsPath]
            rw [lookupChild_setChild_other _ _ _ _ hvw, hw]
            exact hq
          | none =>
            simp only [doesPathExist, hv, containsPath]
            rw [lookupChild_setChild_other _ _ _ _ hvw, hw]
            exact hq

/-- C10: `_doesPathExist(pathsHistoryDict, currPath)` returns `True` iff
every node along `currPath` was already present in the trie before the call,
and as a side effect inserts the full path, so an immediately repeated call
with the same path returns `True`. -/
theorem c10_doesPathExist_spec (t : PathTrie) (p : List Nat) :
    ((doesPathExist t p).1 = containsPath t p) ∧
    (containsPath (doesPathExist t p).2 p = true) ∧
    ((doesPathExist (doesPathExist t p).2 p).1 = true) :=
  ⟨doesPathExist_fst p t, doesPathExist_inserts p t, by
    rw [doesPathExist_fst]; exact doesPathExist_inserts p t⟩

/-! ### `_generateNewPath` and the worker sampling loop -/

/-- `ModelReplicator._generateNewPath`: resample from the alphas
distribution until the sampled path is not in the history trie.
`sampler k` models the path produced by `cModel.choosePathByAlphas()`
followed by `cModel.currWidthIdx()` at the worker's `k`-th draw; the `fuel`
argument bounds the otherwise unbounded `while pathExists` loop (the source
loops forever when the path space is exhausted).  Returns the accepted
path, the updated trie and the next draw counter. -/
def generateNewPath (sampler : Nat → List Nat) :
    Nat → Nat → PathTrie → Option (List Nat × PathTrie × Nat)
  | 0, _, _ => none
  | fuel + 1, k, t =>
    let r := doesPathExist t (sampler k)
    if r.1 then generateNewPath sampler fuel (k + 1) r.2
    else some (sampler k, r.2, k + 1)

/-- The `pathsList` entry appended by `ModelReplicator.evaluateSample`:
`[layer.widthRatioByIdx(p) for p, layer in zip(pathWidthIdx,
cModel.layersList())]`. -/
def ratioPath (layers : List SlimLayer) (p : List Nat) : List ℚ :=
  (p.zip layers).map fun pl => pl.2.widthRatioByIdx pl.1

/-- The per-sample loop of `lossPerReplication` (via `iterateOverSamples` /
`evaluateSample`), iterated `nSamples` times: generate a new unique path
and record it.  Training and evaluating the path touches neither the trie
nor the recorded paths, so it is omitted here; index paths are recorded and
mapped to ratio paths by `ratioPath` separately. -/
def workerLoop (sampler : Nat → List Nat) (fuel : Nat) :
    Nat → Nat → PathTrie → List (List Nat) →
      Option (List (List Nat) × PathTrie × Nat)
  | 0, k, t, acc => some (acc, t, k)
  | n + 1, k, t, acc =>
    match generateNewPath sampler fuel k t with
    | none => none
    | some (p, t2, k2) => workerLoop sampler fuel n k2 t2 (acc ++ [p])

/-- `ModelReplicator.lossPerReplication` on one worker: fresh empty
path-history trie (`pathsHistoryDict = {}`), initially empty paths list,
`nSamples` sampling iterations. -/
def lossPerReplication (sampler : Nat → List Nat) (fuel nSamples : Nat) :
    Option (List (List Nat) × PathTrie × Nat) :=
  workerLoop sampler fuel nSamples 0 (.node []) []

/-- A path is valid for the optimization layers: one index per layer, each
within that layer's width range (sampled paths are `currWidthIdx()` output,
valid by the layer invariant). -/
def validPath : List SlimLayer → List Nat → Prop
  | [], [] => True
  | l :: ls, i :: is => i < l.nWidths ∧ validPath ls is
  | _, _ => False

lemma generateNewPath_spec (sampler : Nat → List Nat) :
    ∀ fuel k t p t2 k2,
    generateNewPath sampler fuel k t = some (p, t2, k2) →
    (∃ m, p = sampler m) ∧ containsPath t2 p = true ∧
    (∀ q, containsPath t q = true → p ≠ q ∧ containsPath t2 q = true) := by
  intro fuel
  induction fuel with
  | zero =>
    intro k t p t2 k2 h
    exact absurd h (by simp [generateNewPath])
  | succ fuel ih =>
    intro k t p t2 k2 h
    simp only [generateNewPath] at h
    by_cases hr : (doesPathExist t (sampler k)).1 = true
    · rw [if_pos hr] at h
      obtain ⟨hm, hc, hmono⟩ := ih (k + 1) (doesPathExist t (sampler k)).2 p t2 k2 h
      exact ⟨hm, hc, fun q hq => hmono q (containsPath_mono (sampler k) t q hq)⟩
    · rw [if_neg hr] at h
      simp only [Option.some.injEq, Prod.mk.injEq] at h
      obtain ⟨rfl, rfl, rfl⟩ := h
      refine ⟨⟨k, rfl⟩, doesPathExist_inserts _ t, ?_⟩
      intro q hq
      constructor
      · rintro rfl
        exact hr (by rw [doesPathExist_fst]; exact hq)
      · exact containsPath_mono _ t q hq

lemma workerLoop_spec (sampler : Nat → List Nat) (fuel : Nat) :
    ∀ n k t acc out t2 k2,
    workerLoop sampler fuel n k t acc = some (out, t2, k2) →
    acc.Nodup → (∀ q ∈ acc, containsPath t q = true) →
    (∀ q ∈ acc, ∃ m, q = sampler m) →
    out.Nodup ∧ (∀ q ∈ out, ∃ m, q = sampler m) := by
  intro n
  induction n with
  | zero =>
    intro k t acc out t2 k2 h hnd hcont hsrc
    simp only [workerLoop, Option.some.injEq, Prod.mk.injEq] at h
    obtain ⟨rfl, rfl, rfl⟩ := h
    exact ⟨hnd, hsrc⟩
  | succ n ih =>
    intro k t acc out t2 k2 h hnd hcont hsrc
    simp only [workerLoop] at h
    cases hg : generateNewPath sampler fuel k t with
    | none => rw [hg] at h; exact absurd h (by simp)
    | some r =>
      obtain ⟨p, tg, kg⟩ := r
      rw [hg] at h
      obtain ⟨hm, hc, hmono⟩ := generateNewPath_spec sampler fuel k t p tg kg hg
      refine ih kg tg (acc ++ [p]) out t2 k2 h ?_ ?_ ?_
      · rw [List.nodup_append]
        refine ⟨hnd, List.nodup_singleton _, ?_⟩
        intro a ha hp
        rw [List.mem_singleton] at hp
        exact (hmono a (hcont a ha)).1 hp.symm
      · intro q hq
        rcases List.mem_append.mp hq with hq | hq
        · exact (hmono q (hcont q hq)).2
        · rw [List.mem_singleton] at hq; subst hq; exact hc
      · intro q hq
        rcases List.mem_append.mp hq with hq | hq
        · exact hsrc q hq
        · rw [List.mem_singleton] at hq; subst hq; exact hm

lemma nodup_getD_inj (l : List ℚ) (hl : l.Nodup) (i j : Nat)
    (hi : i < l.length) (hj : j < l.length)
    (h : l.getD i 0 = l.getD j 0) : i = j := by
  rw [List.getD_eq_getElem _ _ hi, List.getD_eq_getElem _ _ hj] at h
  exact List.Nodup.getElem_inj_iff hl |>.mp h

lemma ratioPath_injOn (layers : List SlimLayer)
    (hnd : ∀ l ∈ layers, l.widthRatioList.Nodup) :
    ∀ p q, validPath layers p → validPath layers q →
      ratioPath layers p = ratioPath layers q → p = q := by
  induction layers with
  | nil =>
    intro p q hp hq _
    cases p with
    | nil =>
      cases q with
      | nil => rfl
      | cons j js => exact absurd hq (by simp [validPath])
    | cons i is => exact absurd hp (by simp [validPath])
  | cons l ls ih =>
    intro p q hp hq hr
    cases p with
    | nil => exact absurd hp (by simp [validPath])
    | cons i is =>
      cases q with
      | nil => exact absurd hq (by simp [validPath])
      | cons j js =>
        obtain ⟨hi, hp2⟩ := hp
        obtain ⟨hj, hq2⟩ := hq
        simp only [ratioPath, List.zip_cons_cons, List.map_cons,
          List.cons.injEq] at hr
        have hij : i = j :=
          nodup_getD_inj l.widthRatioList (hnd l (List.mem_cons_self l ls))
            i j hi hj hr.1
        have hrest : is = js :=
          ih (fun m hm => hnd m (List.mem_cons_of_mem l hm)) is js hp2 hq2 hr.2
        rw [hij, hrest]

/-- C4: within one worker invocation of `lossPerReplication` — fresh empty
path-history trie, `nSamples` iterations of `_generateNewPath` — no two
recorded paths are identical: the sampled index paths are pairwise
distinct, and since every layer's `widthRatioList` holds unique ratios and
every sampled path is valid, the ratio paths recorded in `pathsList` are
pairwise distinct as well.  (Nothing is claimed across workers.) -/
theorem c4_worker_paths_unique (sampler : Nat → List Nat)
    (layers : List SlimLayer) (fuel nSamples : Nat)
    (out : List (List Nat)) (t2 : PathTrie) (k2 : Nat)
    (hrun : lossPerReplication sampler fuel nSamples = some (out, t2, k2))
    (hvalid : ∀ n, validPath layers (sampler n))
    (hnd : ∀ l ∈ layers, l.widthRatioList.Nodup) :
    out.Nodup ∧ (out.map (ratioPath layers)).Nodup := by
  have h := workerLoop_spec sampler fuel nSamples 0 (.node []) [] out t2 k2
    hrun List.nodup_nil (by intro q hq; simp at hq) (by intro q hq; simp at hq)
  refine ⟨h.1, ?_⟩
  apply List.Nodup.map_on ?_ h.1
  intro x hx y hy hxy
  obtain ⟨mx, rfl⟩ := h.2 x hx
  obtain ⟨my, rfl⟩ := h.2 y hy
  exact ratioPath_injOn layers hnd _ _ (hvalid mx) (hvalid my) hxy

/-- Witness for C4: one layer with ratios `[1/4, 1/2, 3/4, 1]`, the sampler
`n ↦ [n % 4]`, two samples: the recorded paths `[[0], [1]]` are distinct,
as index paths and as ratio paths. -/
theorem c4_witness :
    ([[0], [1]] : List (List Nat)).Nodup ∧
    (([[0], [1]] : List (List Nat)).map
        (ratioPath [⟨[1/4, 1/2, 3/4, 1], [8, 16, 24, 32], 0⟩])).Nodup :=
  c4_worker_paths_unique (fun n => [n % 4])
    [⟨[1/4, 1/2, 3/4, 1], [8, 16, 24, 32], 0⟩] 4 2
    [[0], [1]] (.node [(0, .node []), (1, .node [])]) 2
    rfl
    (fun n => ⟨Nat.mod_lt n (by norm_num), trivial⟩)
    (by
      intro l hl
      rw [List.mem_singleton] at hl
      subst hl
      norm_num [List.nodup_cons, List.mem_cons])

/-! ## `trainRegimes/MultinomialSearchRegime.py` : `_updateAlphasGradients`

The routine iterates over the `(lossDict, partition)` pairs; for each
partition it runs `groups = groupby(partition, key=lambda x: x)` —
`itertools.groupby`, which yields maximal runs of *consecutive* equal
values — and executes `partitionGroupsSize[group[0]] = len(group)` per
group (an assignment, not an accumulation), then accumulates
`v2 += lossDict[totalKey].item() * partitionGroupsSize`, divides by
`nSamples`, computes `v1 = lossAvg * model.nLayers() * probs` and sets
`alphas.grad = v2 - v1`. -/

/-- Maximal runs of consecutive equal values — what
`itertools.groupby(partition, key=lambda x: x)` yields (each run listed
with its repeated value). -/
def consecRuns : List Nat → List (List Nat)
  | [] => []
  | x :: xs =>
    match consecRuns xs with
    | [] => [[x]]
    | [] :: rest => [x] :: [] :: rest
    | (y :: ys) :: rest =>
      if x = y then (x :: y :: ys) :: rest else [x] :: (y :: ys) :: rest

/-- The `partitionGroupsSize` tensor built per pair: `zeros(nAlphas)`,
then `partitionGroupsSize[group[0]] = len(group)` for each `groupby` group
(`group[0]` is the run's value; a later run of the same value overwrites
an earlier one; `List.set` ignores out-of-range indices — partition
entries are valid alpha indices). -/
def partitionGroupsSize (nAlphas : Nat) (partition : List Nat) : List ℚ :=
  (consecRuns partition).foldl
    (fun t run => t.set (run.headD 0) (run.length : ℚ))
    (List.replicate nAlphas 0)

/-- Pointwise sum of two loss tensors. -/
def addVec (a b : List ℚ) : List ℚ := (a.zip b).map fun p => p.1 + p.2

/-- Tensor scaled by `lossDict[totalKey].item()`. -/
def scaleVec (c : ℚ) (a : List ℚ) : List ℚ := a.map fun x => c * x

/-- Pointwise difference `v2 - v1`. -/
def subVec (a b : List ℚ) : List ℚ := (a.zip b).map fun p => p.1 - p.2

/-- `MultinomialSearchRegime._updateAlphasGradients`, gradient part: each
pair is `(lossDict[totalKey], partition)`; `probs = model.probs()`,
`nLayers = model.nLayers()`, `nSamples = len(pairs)` (asserted equal to
`args.nSamples` in the source).  Returns `alphas.grad = v2 - v1`. -/
def updateAlphasGradients (nAlphas nLayers : Nat) (probs : List ℚ)
    (pairs : List (ℚ × List Nat)) : List ℚ :=
  let nSamples : ℚ := (pairs.length : ℚ)
  let v2 := pairs.foldl
    (fun acc lp => addVec acc (scaleVec lp.1 (partitionGroupsSize nAlphas lp.2)))
    (List.replicate nAlphas 0)
  let v2avg := v2.map fun x => x / nSamples
  let lossAvg := (pairs.map Prod.fst).sum / nSamples
  let v1 := probs.map fun p => lossAvg * (nLayers : ℚ) * p
  subVec v2avg v1

/-- The group sizes claim C1 describes, written from the spec's words for
comparison: for every alpha index `i`, the total number of occurrences of
value `i` in the partition, regardless of position. -/
def specGroupSizes (nAlphas : Nat) (partition : List Nat) : List ℚ :=
  (List.range nAlphas).map fun i => (partition.count i : ℚ)

/-- C1 (code bug, evaluated at the failing input): `itertools.groupby` on
the unsorted partition yields runs of *consecutive* equal values, and
`partitionGroupsSize[group[0]] = len(group)` lets a later run overwrite an
earlier one.  For the partition `[0, 0, 1, 0]` value 0 occurs 3 times but
the code records weight 1 (the last run's length), so the accumulated
weight is not the occurrence count and the gradient is not the claimed
covariance estimator. -/
theorem c1_groupby_run_overwrite :
    partitionGroupsSize 2 [0, 0, 1, 0] = [1, 1] ∧
    specGroupSizes 2 [0, 0, 1, 0] = [3, 1] ∧
    partitionGroupsSize 2 [0, 0, 1, 0] ≠ specGroupSizes 2 [0, 0, 1, 0] ∧
    updateAlphasGradients 2 4 [1/2, 1/2]
        [(1, [0, 0, 1, 0]), (1, [0, 0, 1, 0])]
      = [-1, -1] := by
  have h1 : partitionGroupsSize 2 [0, 0, 1, 0] = [1, 1] := by
    norm_num [partitionGroupsSize, consecRuns, List.replicate, List.set]
  have h2 : specGroupSizes 2 [0, 0, 1, 0] = [3, 1] := by
    norm_num [specGroupSizes, List.range_succ, List.count_cons]
  refine ⟨h1, h2, ?_, ?_⟩
  · intro h
    rw [h1, h2] at h
    norm_num at h
  · norm_num [updateAlphasGradients, h1, addVec, scaleVec, subVec,
      List.replicate, List.zip, List.zipWith]

/-! ## `models/ResNet18.py` / `models/BaseNet/BaseNet.py` : blocks,
downsample state machine, and the width get/set API

A `BasicBlock` holds two slim conv layers `conv1`, `conv2` and a
`downsample` (Temp or Permanent).  `BaseNet.setCurrWidthIdx(idxList)`
asserts `len == #optimization layers`, sets each optimization layer's index
positionally, then calls `updateCurrWidth()` on every block.  The slim conv
layer itself is modelled from the spec (`SlimLayer` above); everything else
below follows the source. -/

/-- The two downsample kinds of `models/ResNet18.py`
(`PermanentDownsample` / `TempDownsample`). -/
inductive DownsampleKind where
  | permanent
  | temp
deriving DecidableEq, Repr

/-- A downsample's mutable state.  `active` bundles the two fields that
always move together in the source: `self._downsample`
(`[self.downsampleSrc]` when active, `[None]` when not) and
`self.residualFunc` (`downsampleResidual` when active, `standardResidual`
— the identity — when not). -/
structure Downsample where
  kind : DownsampleKind
  downsampleSrc : SlimLayer
  active : Bool
deriving DecidableEq, Repr

/-- `PermanentDownsample.__init__` (`initCurrentDownsample` returns
`downsampleSrc`, `initResidual` returns `downsampleResidual`): active. -/
def Downsample.mkPermanent (src : SlimLayer) : Downsample :=
  ⟨.permanent, src, true⟩

/-- `TempDownsample.__init__` (`initCurrentDownsample` returns `None`,
`initResidual` returns `standardResidual`): inactive. -/
def Downsample.mkTemp (src : SlimLayer) : Downsample :=
  ⟨.temp, src, false⟩

/-- `updateCurrWidth` of the two downsample classes.
`PermanentDownsample`: set the downsample layer's width index to conv2's
(the active/residual state is never touched).  `TempDownsample`: set
`downsampleSrc`'s index to conv2's, reset to inactive, then activate iff
the block's `prevLayer` current width differs from conv2's current width.
`none` models the out-of-range `IndexError` from `setCurrWidthIdx`. -/
def Downsample.updateCurrWidth (d : Downsample) (prevLayer conv2 : SlimLayer) :
    Option Downsample :=
  match d.kind with
  | .permanent =>
    (d.downsampleSrc.setCurrWidthIdx conv2.currWidthIdx).map fun src =>
      { d with downsampleSrc := src }
  | .temp =>
    (d.downsampleSrc.setCurrWidthIdx conv2.currWidthIdx).map fun src =>
      { d with downsampleSrc := src,
               active := decide (prevLayer.currWidth ≠ conv2.currWidth) }

/-- A `BasicBlock` from `models/ResNet18.py`. -/
structure BasicBlock where
  conv1 : SlimLayer
  conv2 : SlimLayer
  downsample : Downsample
deriving DecidableEq, Repr

/-- `BasicBlock.updateCurrWidth`: delegates to
`self.downsample.updateCurrWidth()`; `prev` is the block's input layer
(the `prevLayer` captured at construction). -/
def BasicBlock.updateCurrWidth (b : BasicBlock) (prev : SlimLayer) :
    Option BasicBlock :=
  (b.downsample.updateCurrWidth prev b.conv2).map fun d =>
    { b with downsample := d }

/-- A model block: either a bare slim conv layer (the stem entry of
`initBlocksPlanes`) or a `BasicBlock`. -/
inductive NetBlock where
  | plain : SlimLayer → NetBlock
  | basic : BasicBlock → NetBlock
deriving DecidableEq, Repr

/-- `outputLayer()`: the layer itself for a bare conv layer, `conv2` for a
`BasicBlock`. -/
def NetBlock.outputLayer : NetBlock → SlimLayer
  | .plain l => l
  | .basic b => b.conv2

/-- `getOptimizationLayers()` per block: a bare slim conv layer is itself
an optimization layer (learnable width); a `BasicBlock` contributes
`[conv1, conv2]`; downsample layers contribute none. -/
def NetBlock.optimizationLayers : NetBlock → List SlimLayer
  | .plain l => [l]
  | .basic b => [b.conv1, b.conv2]

/-- Per-block `updateCurrWidth()`: the downsample transition of a
`BasicBlock`; a no-op on a bare conv layer's width state. -/
def NetBlock.updateCurrWidth : NetBlock → SlimLayer → Option NetBlock
  | .plain l, _ => some (.plain l)
  | .basic b, prev => (b.updateCurrWidth prev).map NetBlock.basic

/-- `BaseNet`: the `Input` pseudo-layer (fixed channel count, feeding the
first block) and the block list. -/
structure BaseNet where
  inputLayer : SlimLayer
  blocks : List NetBlock
deriving DecidableEq, Repr

/-- The flattened view `self._layers.optimization()`. -/
def BaseNet.optimizationLayers (net : BaseNet) : List SlimLayer :=
  net.blocks.flatMap NetBlock.optimizationLayers

/-- `BaseNet.currWidthIdx()`:
`[layer.currWidthIdx() for layer in self._layers.optimization()]`. -/
def BaseNet.currWidthIdx (net : BaseNet) : List Nat :=
  net.optimizationLayers.map SlimLayer.currWidthIdx

/-- The same observation on a bare block list (for the phase lemmas). -/
def currIdxOf (bs : List NetBlock) : List Nat :=
  (bs.flatMap NetBlock.optimizationLayers).map SlimLayer.currWidthIdx

/-- Phase 1 of `setCurrWidthIdx`: distribute the index list positionally
over one block's optimization layers, returning the leftover indices. -/
def setBlockLayers : NetBlock → List Nat → Option (NetBlock × List Nat)
  | .plain l, i :: rest => (l.setCurrWidthIdx i).map fun l2 => (.plain l2, rest)
  | .basic b, i :: j :: rest =>
    match b.conv1.setCurrWidthIdx i, b.conv2.setCurrWidthIdx j with
    | some c1, some c2 => some (.basic { b with conv1 := c1, conv2 := c2 }, rest)
    | _, _ => none
  | _, _ => none

/-- Phase 1 over all blocks.  `none` models the length `assert` of
`BaseNet.setCurrWidthIdx` (leftover or missing indices) and the
out-of-range `IndexError` of a layer `setCurrWidthIdx`. -/
def setLayersWidths : List NetBlock → List Nat → Option (List NetBlock)
  | [], [] => some []
  | [], _ :: _ => none
  | b :: bs, idxs =>
    (setBlockLayers b idxs).bind fun br =>
      (setLayersWidths bs br.2).map fun bs2 => br.1 :: bs2

/-- Phase 2: `for block in self.blocks: block.updateCurrWidth()`, threading
each block's input layer (the previous block's `outputLayer()`, the `Input`
stem for the first block). -/
def updateBlocksWidth : SlimLayer → List NetBlock → Option (List NetBlock)
  | _, [] => some []
  | prev, b :: bs =>
    (b.updateCurrWidth prev).bind fun b2 =>
      (updateBlocksWidth b2.outputLayer bs).map fun bs2 => b2 :: bs2

/-- `BaseNet.setCurrWidthIdx(idxList)`: length assert + positional set,
then the per-block width propagation. -/
def BaseNet.setCurrWidthIdx (net : BaseNet) (idxList : List Nat) :
    Option BaseNet :=
  (setLayersWidths net.blocks idxList).bind fun bs =>
    (updateBlocksWidth net.inputLayer bs).map fun bs2 =>
      { net with blocks := bs2 }

/-- `idxList` is valid for the blocks: exactly one in-range index per
optimization layer (the claim's precondition). -/
def validIdx : List NetBlock → List Nat → Prop
  | [], [] => True
  | .plain l :: bs, i :: rest => i < l.nWidths ∧ validIdx bs rest
  | .basic b :: bs, i :: j :: rest =>
    i < b.conv1.nWidths ∧ j < b.conv2.nWidths ∧ validIdx bs rest
  | _, _ => False

/-- Construction invariant of `models/ResNet18.py`: in every `BasicBlock`
the downsample layer is built with the block's own `widthRatioList`, so it
has the same number of candidate widths as `conv2`. -/
def blockWF : NetBlock → Prop
  | .plain _ => True
  | .basic b => b.downsample.downsampleSrc.nWidths = b.conv2.nWidths

/-- Well-formed net: every block satisfies the construction invariant. -/
def BaseNet.wf (net : BaseNet) : Prop := ∀ b ∈ net.blocks, blockWF b

/-- After phase 1, every basic block's conv2 index is in range for its
downsample layer — what phase 2 needs to succeed. -/
def updOK : NetBlock → Prop
  | .plain _ => True
  | .basic b => b.conv2.currWidthIdx < b.downsample.downsampleSrc.nWidths

/-- Width-state erasure: the part of a block `setCurrWidthIdx` +
`updateCurrWidth` never change (ratio lists, channel lists, downsample
kind), with all current indices zeroed and the downsample deactivated. -/
def SlimLayer.resetIdx (l : SlimLayer) : SlimLayer := { l with currWidthIdx := 0 }

/-- Width-state erasure of a whole block. -/
def NetBlock.skeleton : NetBlock → NetBlock
  | .plain l => .plain l.resetIdx
  | .basic b => .basic
      { conv1 := b.conv1.resetIdx, conv2 := b.conv2.resetIdx,
        downsample := { kind := b.downsample.kind,
                        downsampleSrc := b.downsample.downsampleSrc.resetIdx,
                        active := false } }

/-! ### Structure-preservation and phase lemmas for `setCurrWidthIdx` -/

lemma currIdxOf_cons (b : NetBlock) (bs : List NetBlock) :
    currIdxOf (b :: bs)
      = b.optimizationLayers.map SlimLayer.currWidthIdx ++ currIdxOf bs := by
  simp [currIdxOf]

lemma resetIdx_nWidths_eq {l l2 : SlimLayer} (h : l2.resetIdx = l.resetIdx) :
    l2.nWidths = l.nWidths := by
  have h2 := congrArg SlimLayer.widthRatioList h
  simp only [SlimLayer.resetIdx] at h2
  simp [SlimLayer.nWidths, h2]

lemma skeleton_validIdx : ∀ (bs bs2 : List NetBlock),
    bs2.map NetBlock.skeleton = bs.map NetBlock.skeleton →
    ∀ idxs, validIdx bs idxs → validIdx bs2 idxs := by
  intro bs
  induction bs with
  | nil =>
    intro bs2 h idxs hv
    cases bs2 with
    | nil => exact hv
    | cons b2 bs2 => simp at h
  | cons b bs ih =>
    intro bs2 h idxs hv
    cases bs2 with
    | nil => simp at h
    | cons b2 bs2 =>
      simp only [List.map_cons, List.cons.injEq] at h
      obtain ⟨hb, hbs⟩ := h
      cases b with
      | plain l =>
        cases b2 with
        | plain l2 =>
          simp only [NetBlock.skeleton, NetBlock.plain.injEq] at hb
          cases idxs with
          | nil => simp [validIdx] at hv
          | cons i rest =>
            obtain ⟨hi, hrest⟩ := hv
            exact ⟨by rw [resetIdx_nWidths_eq hb]; exact hi, ih bs2 hbs rest hrest⟩
        | basic bb2 => simp [NetBlock.skeleton] at hb
      | basic bb =>
        cases b2 with
        | plain l2 => simp [NetBlock.skeleton] at hb
        | basic bb2 =>
          simp only [NetBlock.skeleton, NetBlock.basic.injEq,
            BasicBlock.mk.injEq] at hb
          obtain ⟨h1, h2, _⟩ := hb
          cases idxs with
          | nil => simp [validIdx] at hv
          | cons i rest =>
            cases rest with
            | nil => simp [validIdx] at hv
            | cons j rest =>
              obtain ⟨hi, hj, hrest⟩ := hv
              exact ⟨by rw [resetIdx_nWidths_eq h1]; exact hi,
                by rw [resetIdx_nWidths_eq h2]; exact hj,
                ih bs2 hbs rest hrest⟩

lemma skeleton_blockWF {b b2 : NetBlock} (h : b2.skeleton = b.skeleton) :
    blockWF b → blockWF b2 := by
  cases b with
  | plain l =>
    cases b2 with
    | plain l2 => intro _; trivial
    | basic bb2 => simp [NetBlock.skeleton] at h
  | basic bb =>
    cases b2 with
    | plain l2 => simp [NetBlock.skeleton] at h
    | basic bb2 =>
      simp only [NetBlock.skeleton, NetBlock.basic.injEq,
        BasicBlock.mk.injEq, Downsample.mk.injEq] at h
      obtain ⟨_, h2, _, h3, _⟩ := h
      intro hwf
      simp only [blockWF] at hwf ⊢
      rw [resetIdx_nWidths_eq h3, resetIdx_nWidths_eq h2]
      exact hwf

lemma setLayersWidths_spec : ∀ (bs : List NetBlock) (idxs : List Nat),
    (∀ b ∈ bs, blockWF b) → validIdx bs idxs →
    ∃ bs2, setLayersWidths bs idxs = some bs2 ∧
      currIdxOf bs2 = idxs ∧
      bs2.map NetBlock.skeleton = bs.map NetBlock.skeleton ∧
      (∀ b2 ∈ bs2, updOK b2) := by
  intro bs
  induction bs with
  | nil =>
    intro idxs hwf hv
    cases idxs with
    | nil => exact ⟨[], rfl, rfl, rfl, by simp⟩
    | cons i rest => simp [validIdx] at hv
  | cons b bs ih =>
    intro idxs hwf hv
    cases b with
    | plain l =>
      cases idxs with
      | nil => simp [validIdx] at hv
      | cons i rest =>
        obtain ⟨hi, hrest⟩ := hv
        obtain ⟨bs2, hset, hidx, hskel, hupd⟩ :=
          ih rest (fun x hx => hwf x (List.mem_cons_of_mem _ hx)) hrest
        refine ⟨.plain { l with currWidthIdx := i } :: bs2, ?_, ?_, ?_, ?_⟩
        · simp [setLayersWidths, setBlockLayers, SlimLayer.setCurrWidthIdx,
            hi, hset]
        · rw [currIdxOf_cons, hidx]
          rfl
        · simp only [List.map_cons, List.cons.injEq]
          exact ⟨rfl, hskel⟩
        · intro b2 hb2
          rcases List.mem_cons.mp hb2 with rfl | hb2
          · trivial
          · exact hupd b2 hb2
    | basic bb =>
      cases idxs with
      | nil => simp [validIdx] at hv
      | cons i rest =>
        cases rest with
        | nil => simp [validIdx] at hv
        | cons j rest =>
          obtain ⟨hi, hj, hrest⟩ := hv
          have hwfb : blockWF (.basic bb) := hwf _ (List.mem_cons_self _ _)
          simp only [blockWF] at hwfb
          obtain ⟨bs2, hset, hidx, hskel, hupd⟩ :=
            ih rest (fun x hx => hwf x (List.mem_cons_of_mem _ hx)) hrest
          refine ⟨.basic { bb with conv1 := { bb.conv1 with currWidthIdx := i },
                                   conv2 := { bb.conv2 with currWidthIdx := j } }
                    :: bs2, ?_, ?_, ?_, ?_⟩
          · simp [setLayersWidths, setBlockLayers, SlimLayer.setCurrWidthIdx,
              hi, hj, hset]
          · rw [currIdxOf_cons, hidx]
            rfl
          · simp only [List.map_cons, List.cons.injEq]
            exact ⟨rfl, hskel⟩
          · intro b2 hb2
            rcases List.mem_cons.mp hb2 with rfl | hb2
            · simp only [updOK]
              rw [hwfb]
              exact hj
            · exact hupd b2 hb2

/-- `Downsample.updateCurrWidth` on an in-range conv2 index: succeeds,
keeps ratio/channel lists and kind, sets the downsample layer's index to
conv2's, keeps `active` for a permanent downsample, and recomputes
`active` from the width comparison for a temporary one. -/
lemma downsample_update_spec (d : Downsample) (prev conv2 : SlimLayer)
    (hok : conv2.currWidthIdx < d.downsampleSrc.nWidths) :
    ∃ d2, d.updateCurrWidth prev conv2 = some d2 ∧
      d2.downsampleSrc.resetIdx = d.downsampleSrc.resetIdx ∧
      d2.downsampleSrc.currWidthIdx = conv2.currWidthIdx ∧
      d2.kind = d.kind ∧
      (d.kind = .permanent → d2.active = d.active) ∧
      (d.kind = .temp →
        d2.active = decide (prev.currWidth ≠ conv2.currWidth)) := by
  cases hk : d.kind with
  | permanent =>
    refine ⟨{ d with downsampleSrc :=
          { d.downsampleSrc with currWidthIdx := conv2.currWidthIdx } },
      ?_, rfl, rfl, hk, fun _ => rfl, fun ht => ?_⟩
    · simp [Downsample.updateCurrWidth, hk, SlimLayer.setCurrWidthIdx, hok]
    · cases ht
  | temp =>
    refine ⟨{ d with
          downsampleSrc :=
            { d.downsampleSrc with currWidthIdx := conv2.currWidthIdx },
          active := decide (prev.currWidth ≠ conv2.currWidth) },
      ?_, rfl, rfl, hk, fun hp => ?_, fun _ => rfl⟩
    · simp [Downsample.updateCurrWidth, hk, SlimLayer.setCurrWidthIdx, hok]
    · cases hp

lemma updateBlocksWidth_spec : ∀ (bs : List NetBlock) (prev : SlimLayer),
    (∀ b ∈ bs, updOK b) →
    ∃ bs2, updateBlocksWidth prev bs = some bs2 ∧
      currIdxOf bs2 = currIdxOf bs ∧
      bs2.map NetBlock.skeleton = bs.map NetBlock.skeleton := by
  intro bs
  induction bs with
  | nil => intro prev _; exact ⟨[], rfl, rfl, rfl⟩
  | cons b bs ih =>
    intro prev hupd
    cases b with
    | plain l =>
      obtain ⟨bs2, hupd2, hidx, hskel⟩ :=
        ih (NetBlock.outputLayer (.plain l))
          (fun x hx => hupd x (List.mem_cons_of_mem _ hx))
      refine ⟨.plain l :: bs2, ?_, ?_, ?_⟩
      · simp [updateBlocksWidth, NetBlock.updateCurrWidth, hupd2]
      · rw [currIdxOf_cons, currIdxOf_cons, hidx]
      · simp only [List.map_cons, hskel]
    | basic bb =>
      have hok : bb.conv2.currWidthIdx < bb.downsample.downsampleSrc.nWidths :=
        hupd _ (List.mem_cons_self _ _)
      obtain ⟨d2, hd2, hreset, hsetidx, hkind2, _, _⟩ :=
        downsample_update_spec bb.downsample prev bb.conv2 hok
      obtain ⟨bs2, hupd2, hidx, hskel⟩ :=
        ih (NetBlock.outputLayer (.basic { bb with downsample := d2 }))
          (fun x hx => hupd x (List.mem_cons_of_mem _ hx))
      refine ⟨.basic { bb with downsample := d2 } :: bs2, ?_, ?_, ?_⟩
      · simp [updateBlocksWidth, NetBlock.updateCurrWidth,
          BasicBlock.updateCurrWidth, hd2, hupd2]
      · rw [currIdxOf_cons, currIdxOf_cons, hidx]
        rfl
      · simp only [List.map_cons, hskel]
        have hs : NetBlock.skeleton (.basic { bb with downsample := d2 })
            = NetBlock.skeleton (.basic bb) := by
          simp only [NetBlock.skeleton, hkind2, hreset]
        rw [hs]

/-- Full `setCurrWidthIdx` success and round-trip on a well-formed net with
a valid index list. -/
lemma setCurrWidthIdx_spec (net : BaseNet) (idxs : List Nat)
    (hwf : net.wf) (hv : validIdx net.blocks idxs) :
    ∃ net2, net.setCurrWidthIdx idxs = some net2 ∧
      net2.currWidthIdx = idxs ∧
      net2.blocks.map NetBlock.skeleton = net.blocks.map NetBlock.skeleton ∧
      net2.inputLayer = net.inputLayer ∧ net2.wf := by
  obtain ⟨bs2, hset, hidx, hskel, hupd⟩ := setLayersWidths_spec net.blocks idxs hwf hv
  obtain ⟨bs3, hupd3, hidx3, hskel3⟩ := updateBlocksWidth_spec bs2 net.inputLayer hupd
  refine ⟨{ net with blocks := bs3 }, ?_, ?_, ?_, rfl, ?_⟩
  · simp [BaseNet.setCurrWidthIdx, hset, hupd3]
  · show currIdxOf bs3 = idxs
    rw [hidx3, hidx]
  · show bs3.map NetBlock.skeleton = net.blocks.map NetBlock.skeleton
    rw [hskel3, hskel]
  · intro b hb
    have hb2 : b ∈ bs3 := hb
    have hskb : bs3.map NetBlock.skeleton = net.blocks.map NetBlock.skeleton := by
      rw [hskel3, hskel]
    obtain ⟨i, hij, hbi⟩ := List.mem_iff_getElem.mp hb2
    have hlen : bs3.length = net.blocks.length := by
      have h5 := congrArg List.length hskb
      simpa using h5
    have hib : i < net.blocks.length := by omega
    have h6 : (bs3.map NetBlock.skeleton).getD i (.plain ⟨[], [], 0⟩)
        = (net.blocks.map NetBlock.skeleton).getD i (.plain ⟨[], [], 0⟩) := by
      rw [hskb]
    rw [List.getD_eq_getElem _ _ (by simpa using hij),
      List.getD_eq_getElem _ _ (by simpa using hib)] at h6
    simp only [List.getElem_map] at h6
    rw [hbi] at h6
    exact skeleton_blockWF h6 (hwf _ (List.getElem_mem hib))

/-! ### Claim theorems C5 and C7 -/

/-- C5: for every `idxList` holding exactly one valid width index per
optimization layer (`validIdx`), on a well-formed net
`setCurrWidthIdx(idxList)` succeeds and a subsequent `currWidthIdx()`
returns exactly `idxList` — the per-block `updateCurrWidth` propagation
does not alter any optimization layer's current width index. -/
theorem c5_set_then_get (net : BaseNet) (idxList : List Nat)
    (hwf : net.wf) (hv : validIdx net.blocks idxList) :
    (net.setCurrWidthIdx idxList).map BaseNet.currWidthIdx = some idxList := by
  obtain ⟨net2, hset, hidx, _, _, _⟩ := setCurrWidthIdx_spec net idxList hwf hv
  rw [hset, Option.map_some', hidx]

/-- A small concrete net in the shape of `ResNet18_Cifar`: an `Input` stem,
one bare slim conv layer, one `BasicBlock` with a temporary downsample;
current width indices `[1, 0, 1]`. -/
def exampleNet : BaseNet :=
  ⟨⟨[1], [3], 0⟩,
   [.plain ⟨[1/2, 1], [8, 16], 1⟩,
    .basic ⟨⟨[1/2, 1], [8, 16], 0⟩, ⟨[1/2, 1], [8, 16], 1⟩,
      Downsample.mkTemp ⟨[1/2, 1], [8, 16], 0⟩⟩]⟩

/-- Witness for C5: `setCurrWidthIdx [0, 1, 0]` on `exampleNet` round-trips. -/
theorem c5_witness :
    (exampleNet.setCurrWidthIdx [0, 1, 0]).map BaseNet.currWidthIdx
      = some [0, 1, 0] :=
  c5_set_then_get exampleNet [0, 1, 0]
    (by
      intro b hb
      rcases List.mem_cons.mp hb with rfl | hb
      · trivial
      · rcases List.mem_cons.mp hb with rfl | hb
        · simp [blockWF, SlimLayer.nWidths, Downsample.mkTemp, exampleNet]
        · simp at hb)
    (by norm_num [validIdx, SlimLayer.nWidths, exampleNet])

/-- C7: after `updateCurrWidth()` — with conv2's index in range for the
downsample layer, as construction guarantees — a `TempDownsample` is
Inactive (identity residual and `downsample() is None`, bundled in
`active = false`) iff the previous layer's current width equals conv2's
current width, and Active otherwise; a `PermanentDownsample` (constructed
Active, and its update never touches the active state) stays Active and
its downsample layer's `currWidthIdx` is set to conv2's `currWidthIdx`. -/
theorem c7_downsample_state (d : Downsample) (prevLayer conv2 : SlimLayer)
    (hok : conv2.currWidthIdx < d.downsampleSrc.nWidths) :
    (d.kind = .temp →
      ∃ d2, d.updateCurrWidth prevLayer conv2 = some d2 ∧
        (d2.active = false ↔ prevLayer.currWidth = conv2.currWidth) ∧
        d2.downsampleSrc.currWidthIdx = conv2.currWidthIdx) ∧
    (d.kind = .permanent → d.active = true →
      ∃ d2, d.updateCurrWidth prevLayer conv2 = some d2 ∧
        d2.active = true ∧
        d2.downsampleSrc.currWidthIdx = conv2.currWidthIdx) := by
  obtain ⟨d2, hupd, _, hidx, _, hperm, htemp⟩ :=
    downsample_update_spec d prevLayer conv2 hok
  constructor
  · intro ht
    refine ⟨d2, hupd, ?_, hidx⟩
    rw [htemp ht]
    simp
  · intro hp hact
    exact ⟨d2, hupd, by rw [hperm hp]; exact hact, hidx⟩

/-- Witness for C7, following the spec's end-to-end scenario: previous
layer at width 32 and conv2 at width 32 gives an inactive temporary
downsample; conv2 at width 16 gives an active one; a permanent downsample
stays active and takes conv2's index 1. -/
theorem c7_witness :
    ((Downsample.mkTemp ⟨[1/2, 1], [16, 32], 0⟩).updateCurrWidth
        ⟨[1], [32], 0⟩ ⟨[1/2, 1], [16, 32], 1⟩).map Downsample.active
      = some false ∧
    ((Downsample.mkTemp ⟨[1/2, 1], [16, 32], 0⟩).updateCurrWidth
        ⟨[1], [32], 0⟩ ⟨[1/2, 1], [16, 32], 0⟩).map Downsample.active
      = some true ∧
    ((Downsample.mkPermanent ⟨[1/2, 1], [16, 32], 0⟩).updateCurrWidth
        ⟨[1], [32], 0⟩ ⟨[1/2, 1], [16, 32], 1⟩).map
          (fun d2 => (d2.active, d2.downsampleSrc.currWidthIdx))
      = some (true, 1) := by
  refine ⟨?_, ?_, ?_⟩
  · obtain ⟨d2, h1, h2, h3⟩ :=
      (c7_downsample_state (Downsample.mkTemp ⟨[1/2, 1], [16, 32], 0⟩)
        ⟨[1], [32], 0⟩ ⟨[1/2, 1], [16, 32], 1⟩
        (by norm_num [SlimLayer.nWidths, Downsample.mkTemp])).1 rfl
    rw [h1, Option.map_some', h2.mpr rfl]
  · obtain ⟨d2, h1, h2, h3⟩ :=
      (c7_downsample_state (Downsample.mkTemp ⟨[1/2, 1], [16, 32], 0⟩)
        ⟨[1], [32], 0⟩ ⟨[1/2, 1], [16, 32], 0⟩
        (by norm_num [SlimLayer.nWidths, Downsample.mkTemp])).1 rfl
    have hne : SlimLayer.currWidth ⟨[1], [32], 0⟩
        ≠ SlimLayer.currWidth ⟨[1/2, 1], [16, 32], 0⟩ := by
      norm_num [SlimLayer.currWidth]
    have hact : d2.active = true := by
      cases hda : d2.active
      · exact absurd (h2.mp hda) hne
      · rfl
    rw [h1, Option.map_some', hact]
  · obtain ⟨d2, h1, h2, h3⟩ :=
      (c7_downsample_state (Downsample.mkPermanent ⟨[1/2, 1], [16, 32], 0⟩)
        ⟨[1], [32], 0⟩ ⟨[1/2, 1], [16, 32], 1⟩
        (by norm_num [SlimLayer.nWidths, Downsample.mkPermanent])).2 rfl rfl
    rw [h1, Option.map_some', h2, h3]

/-! ### `BaseNet.applyOnBaseline` and claim C6 -/

/-- The loop of `BaseNet.applyOnBaseline`: for every `(widthRatio, idxList)`
yielded by `self.baselineWidth()`, set that configuration and record
`func()`'s result under the key. -/
def applyOnBaselineGo {α κ : Type} (func : BaseNet → α) :
    BaseNet → List (κ × List Nat) → Option (List (κ × α) × BaseNet)
  | net, [] => some ([], net)
  | net, kv :: rest =>
    (net.setCurrWidthIdx kv.2).bind fun net2 =>
      (applyOnBaselineGo func net2 rest).map fun rs =>
        ((kv.1, func net2) :: rs.1, rs.2)

/-- `BaseNet.applyOnBaseline(func, restoreOrgStateFlag)`: save
`currWidthIdx()`, iterate over the baseline entries, then restore the
saved configuration with `setCurrWidthIdx`.
`restoreOriginalStateDictStructure()` (run when the flag is set) is
abstract in `BaseNet` and per the spec only restores the state-dict
layout, never width indices, so it is the identity here; the flag is kept
for signature fidelity. -/
def BaseNet.applyOnBaseline {α κ : Type} (net : BaseNet) (func : BaseNet → α)
    (baseline : List (κ × List Nat)) (restoreOrgStateFlag : Bool) :
    Option (List (κ × α) × BaseNet) :=
  (applyOnBaselineGo func net baseline).bind fun rs =>
    (rs.2.setCurrWidthIdx net.currWidthIdx).map fun net3 => (rs.1, net3)

lemma applyOnBaselineGo_spec {α κ : Type} (func : BaseNet → α)
    (net : BaseNet) :
    ∀ (baseline : List (κ × List Nat)) (cur : BaseNet),
    cur.blocks.map NetBlock.skeleton = net.blocks.map NetBlock.skeleton →
    cur.wf →
    (∀ kv ∈ baseline, validIdx net.blocks kv.2) →
    ∃ results fin2,
      applyOnBaselineGo func cur baseline = some (results, fin2) ∧
      fin2.blocks.map NetBlock.skeleton = net.blocks.map NetBlock.skeleton ∧
      fin2.wf ∧
      List.Forall₂ (fun (kv : κ × List Nat) (r : κ × α) =>
        r.1 = kv.1 ∧ ∃ m : BaseNet, m.currWidthIdx = kv.2 ∧
          m.blocks.map NetBlock.skeleton = net.blocks.map NetBlock.skeleton ∧
          r.2 = func m) baseline results := by
  intro baseline
  induction baseline with
  | nil =>
    intro cur hsk hwf _
    exact ⟨[], cur, rfl, hsk, hwf, List.Forall₂.nil⟩
  | cons kv rest ih =>
    intro cur hsk hwf hbase
    have hv : validIdx cur.blocks kv.2 :=
      skeleton_validIdx net.blocks cur.blocks hsk kv.2
        (hbase kv (List.mem_cons_self _ _))
    obtain ⟨net2, hset, hidx, hskel2, _, hwf2⟩ :=
      setCurrWidthIdx_spec cur kv.2 hwf hv
    have hsk2 : net2.blocks.map NetBlock.skeleton
        = net.blocks.map NetBlock.skeleton := by rw [hskel2, hsk]
    obtain ⟨results, fin2, hgo, hskf, hwff, hrel⟩ :=
      ih net2 hsk2 hwf2 (fun x hx => hbase x (List.mem_cons_of_mem _ hx))
    refine ⟨(kv.1, func net2) :: results, fin2, ?_, hskf, hwff, ?_⟩
    · simp [applyOnBaselineGo, hset, hgo]
    · exact List.Forall₂.cons ⟨rfl, net2, hidx, hsk2, rfl⟩ hrel

/-- C6: on a well-formed net whose own current indices are valid and whose
baseline entries are all valid, `applyOnBaseline(func, flag)` succeeds,
leaves the model's current width configuration unchanged (`currWidthIdx()`
before equals `currWidthIdx()` after), and returns exactly one entry per
baseline key, in order, holding `func`'s result on a net in that key's
width configuration (same structure as `net`, `currWidthIdx = idxList`). -/
theorem c6_applyOnBaseline_restores {α κ : Type} (net : BaseNet)
    (func : BaseNet → α) (baseline : List (κ × List Nat))
    (restoreOrgStateFlag : Bool)
    (hwf : net.wf) (hself : validIdx net.blocks net.currWidthIdx)
    (hbase : ∀ kv ∈ baseline, validIdx net.blocks kv.2) :
    ∃ results net2,
      net.applyOnBaseline func baseline restoreOrgStateFlag
        = some (results, net2) ∧
      net2.currWidthIdx = net.currWidthIdx ∧
      List.Forall₂ (fun (kv : κ × List Nat) (r : κ × α) =>
        r.1 = kv.1 ∧ ∃ m : BaseNet, m.currWidthIdx = kv.2 ∧
          m.blocks.map NetBlock.skeleton = net.blocks.map NetBlock.skeleton ∧
          r.2 = func m) baseline results := by
  obtain ⟨results, fin2, hgo, hskf, hwff, hrel⟩ :=
    applyOnBaselineGo_spec func net baseline net rfl hwf hbase
  have hvfin : validIdx fin2.blocks net.currWidthIdx :=
    skeleton_validIdx net.blocks fin2.blocks hskf net.currWidthIdx hself
  obtain ⟨net3, hset3, hidx3, _, _, _⟩ :=
    setCurrWidthIdx_spec fin2 net.currWidthIdx hwff hvfin
  refine ⟨results, net3, ?_, hidx3, hrel⟩
  simp [BaseNet.applyOnBaseline, hgo, hset3]

/-- Witness for C6 on `exampleNet` (current indices `[1, 0, 1]`), with
`func = currWidthIdx` and two homogeneous baseline entries: after the call
the configuration is restored to `[1, 0, 1]`. -/
theorem c6_witness :
    ((exampleNet.applyOnBaseline BaseNet.currWidthIdx
        [(0, [0, 0, 0]), (1, [1, 1, 1])] true).map
      fun rs => rs.2.currWidthIdx) = some [1, 0, 1] := by
  obtain ⟨results, net2, happ, hrest, _⟩ :=
    c6_applyOnBaseline_restores exampleNet BaseNet.currWidthIdx
      [(0, [0, 0, 0]), (1, [1, 1, 1])] true
      (by
        intro b hb
        rcases List.mem_cons.mp hb with rfl | hb
        · trivial
        · rcases List.mem_cons.mp hb with rfl | hb
          · simp [blockWF, SlimLayer.nWidths, Downsample.mkTemp, exampleNet]
          · simp at hb)
      (by norm_num [validIdx, SlimLayer.nWidths, exampleNet,
            BaseNet.currWidthIdx, BaseNet.optimizationLayers,
            NetBlock.optimizationLayers, SlimLayer.currWidthIdx])
      (by
        intro kv hkv
        rcases List.mem_cons.mp hkv with rfl | hkv
        · norm_num [validIdx, SlimLayer.nWidths, exampleNet]
        · rcases List.mem_cons.mp hkv with rfl | hkv
          · norm_num [validIdx, SlimLayer.nWidths, exampleNet]
          · simp at hkv)
  rw [happ, Option.map_some', hrest]
  rfl

end Slimmable
